import Mathlib

/-!
# Verification of the git-plumbing reimplementation (`app/main.py`)

This file gives a shallow embedding of the byte-level core of the
repository: the loose-object store (`_hash_object` / `cat_file`), the
tree codec (`ls_tree` / `_write_tree`), the commit encoder
(`commit_tree`), the fetch-response checksum check, the packfile
parser and the ref-delta resolver (all inside `clone`), and the
varint reader `process_var_int`.  Python byte strings are modelled as
`List Nat` (each element a byte value), Python `str` as Lean `String`,
and the filesystem object store as a function `String → Option (List Nat)`
from hex OIDs to stored (compressed) bytes.  `zlib.compress` /
`zlib.decompress` are external collaborators and are passed in as
function parameters; `hashlib.sha1` is implemented concretely below.
Python exceptions (`AssertionError`, `ValueError`, `IndexError`,
`FileNotFoundError`, `zlib.error`) become explicit error values.
-/

set_option maxRecDepth 4000

namespace GitPy

/- All recursive definitions below are structurally recursive (using an
explicit fuel argument where the Python loop is not structural), so that
every function evaluates by kernel reduction inside `decide`. -/

/-- UTF-8 encoding of a single unicode code point, as byte values. -/
def utf8Bytes (c : Nat) : List Nat :=
  if c < 0x80 then [c]
  else if c < 0x800 then
    [0xC0 ||| (c >>> 6), 0x80 ||| (c &&& 0x3F)]
  else if c < 0x10000 then
    [0xE0 ||| (c >>> 12), 0x80 ||| ((c >>> 6) &&& 0x3F), 0x80 ||| (c &&& 0x3F)]
  else
    [0xF0 ||| (c >>> 18), 0x80 ||| ((c >>> 12) &&& 0x3F),
     0x80 ||| ((c >>> 6) &&& 0x3F), 0x80 ||| (c &&& 0x3F)]

/-- Python `s.encode("utf-8")`: the UTF-8 bytes of a string. -/
def strBytes (s : String) : List Nat :=
  (s.data.map (fun c => utf8Bytes c.toNat)).flatten

/-- Lowercase hex digit for a value `< 16`. -/
def hexDigit (n : Nat) : Char :=
  if n < 10 then Char.ofNat (48 + n) else Char.ofNat (87 + n)

/-- Lowercase hex rendering of a byte list (Python `bytes.hex()` /
`hashlib.sha1(..).hexdigest()`). -/
def bytesToHex (bs : List Nat) : String :=
  ⟨(bs.map (fun b => [hexDigit (b / 16), hexDigit (b % 16)])).flatten⟩

/-- Big-endian interpretation of a byte list (Python `int.from_bytes(bs, "big")`). -/
def beNat (bs : List Nat) : Nat :=
  bs.foldl (fun a b => a * 256 + b) 0

/-- Python `bs[-n:]` for nonnegative `n`. -/
def takeLast (n : Nat) (bs : List Nat) : List Nat :=
  bs.drop (bs.length - n)

/-- Python `bs[:-n]` for nonnegative `n`. -/
def dropLastN (n : Nat) (bs : List Nat) : List Nat :=
  bs.take (bs.length - n)

/-- Python `bs.split(sep, 1)` restricted to a one-byte separator:
`some (before, after)` at the first occurrence, `none` when the
separator is absent (in which case the source's two-target unpacking
raises `ValueError`). -/
def splitFirst (sep : Nat) : List Nat → Option (List Nat × List Nat)
  | [] => none
  | b :: rest =>
    if b = sep then some ([], rest)
    else (splitFirst sep rest).map (fun p => (b :: p.1, p.2))

/-- Python `bs.split(sep)` with a one-byte separator: split at every
occurrence, keeping empty fields. -/
def splitAll (sep : Nat) : List Nat → List (List Nat)
  | [] => [[]]
  | b :: rest =>
    if b = sep then [] :: splitAll sep rest
    else
      match splitAll sep rest with
      | [] => [[b]]
      | p :: ps => (b :: p) :: ps

/-- Index of the first NUL byte (Python `bs.find(b"\x00")`, with `none`
for `-1`). -/
def findNul : List Nat → Option Nat
  | [] => none
  | b :: rest =>
    if b = 0 then some 0 else (findNul rest).map (· + 1)

/-- Decimal digits of `n`, least significant first; `fuel ≥ n` makes the
result exact (the fuel only bounds the recursion depth). -/
def digitsAux : Nat → Nat → List Nat
  | 0, n => [n % 10]
  | fuel + 1, n => if n < 10 then [n] else (n % 10) :: digitsAux fuel (n / 10)

/-- ASCII decimal rendering of a natural number (what Python's
`f"{len(content)}"` produces). -/
def decimalBytes (n : Nat) : List Nat :=
  (digitsAux n n).reverse.map (· + 48)

/-- Helper for `parseDecimal`: fold decimal digits onto an accumulator. -/
def parseDecimalAux (acc : Nat) : List Nat → Option Nat
  | [] => some acc
  | d :: rest =>
    if 48 ≤ d ∧ d ≤ 57 then parseDecimalAux (acc * 10 + (d - 48)) rest else none

/-- Python `int(bs)` as used on the frame's length field: parses a
non-empty all-digit byte string, `none` (a `ValueError`) otherwise. -/
def parseDecimal (bs : List Nat) : Option Nat :=
  if bs = [] then none else parseDecimalAux 0 bs

/-! ## SHA-1 (`hashlib.sha1`) -/

/-- 32-bit left rotation. -/
def rotl32 (k n : Nat) : Nat :=
  ((n <<< k) ||| (n >>> (32 - k))) % 4294967296

/-- 8-byte big-endian rendering of a number. -/
def beBytes8 (n : Nat) : List Nat :=
  (List.range 8).map (fun i => (n >>> (8 * (7 - i))) % 256)

/-- 4-byte big-endian rendering of a number. -/
def beBytes4 (n : Nat) : List Nat :=
  (List.range 4).map (fun i => (n >>> (8 * (3 - i))) % 256)

/-- SHA-1 message padding: `0x80`, zeros to 56 mod 64, then the 64-bit
big-endian bit length. -/
def sha1Pad (msg : List Nat) : List Nat :=
  msg ++ [0x80] ++ List.replicate ((119 - msg.length % 64) % 64) 0
      ++ beBytes8 (8 * msg.length)

/-- The 16 big-endian 32-bit words of one 64-byte chunk. -/
def chunkWords (bytes64 : List Nat) : Array Nat :=
  ((List.range 16).map (fun i => beNat ((bytes64.drop (4 * i)).take 4))).toArray

/-- Extend 16 schedule words to 80. -/
def sha1Extend (w : Array Nat) : Array Nat :=
  (List.range 64).foldl
    (fun w i =>
      w.push (rotl32 1 ((((w.getD (i + 13) 0) ^^^ (w.getD (i + 8) 0)) ^^^
        (w.getD (i + 2) 0)) ^^^ (w.getD i 0))))
    w

/-- SHA-1 round function for round `t`. -/
def sha1F (t b c d : Nat) : Nat :=
  if t < 20 then (b &&& c) ||| ((b ^^^ 4294967295) &&& d)
  else if t < 40 then (b ^^^ c) ^^^ d
  else if t < 60 then ((b &&& c) ||| (b &&& d)) ||| (c &&& d)
  else (b ^^^ c) ^^^ d

/-- SHA-1 round constant for round `t`. -/
def sha1K (t : Nat) : Nat :=
  if t < 20 then 0x5A827999
  else if t < 40 then 0x6ED9EBA1
  else if t < 60 then 0x8F1BBCDC
  else 0xCA62C1D6

/-- One SHA-1 round on the five-word state. -/
def sha1Round (w : Array Nat) (st : Nat × Nat × Nat × Nat × Nat) (t : Nat) :
    Nat × Nat × Nat × Nat × Nat :=
  let (a, b, c, d, e) := st
  ((rotl32 5 a + sha1F t b c d + e + sha1K t + w.getD t 0) % 4294967296,
   a, rotl32 30 b, c, d)

/-- Process one 64-byte chunk. -/
def sha1Chunk (h : Nat × Nat × Nat × Nat × Nat) (bytes64 : List Nat) :
    Nat × Nat × Nat × Nat × Nat :=
  let w := sha1Extend (chunkWords bytes64)
  let (h0, h1, h2, h3, h4) := h
  let (a, b, c, d, e) := (List.range 80).foldl (sha1Round w) h
  ((h0 + a) % 4294967296, (h1 + b) % 4294967296, (h2 + c) % 4294967296,
   (h3 + d) % 4294967296, (h4 + e) % 4294967296)

/-- Process a padded message 64 bytes at a time; `fuel` bounds the number
of chunks (any `fuel ≥` the chunk count gives the exact result). -/
def sha1Blocks : Nat → (Nat × Nat × Nat × Nat × Nat) → List Nat → Nat × Nat × Nat × Nat × Nat
  | _, h, [] => h
  | 0, h, _ => h
  | fuel + 1, h, bs => sha1Blocks fuel (sha1Chunk h (bs.take 64)) (bs.drop 64)

/-- Model of `hashlib.sha1(msg).digest()`: the 20-byte SHA-1 digest. -/
def sha1Bytes (msg : List Nat) : List Nat :=
  let padded := sha1Pad msg
  let (h0, h1, h2, h3, h4) :=
    sha1Blocks padded.length
      (0x67452301, 0xEFCDAB89, 0x98BADCFE, 0x10325476, 0xC3D2E1F0) padded
  beBytes4 h0 ++ beBytes4 h1 ++ beBytes4 h2 ++ beBytes4 h3 ++ beBytes4 h4

/-- Model of `hashlib.sha1(msg).hexdigest()`: the 40-char lowercase hex digest. -/
def sha1Hex (msg : List Nat) : String :=
  bytesToHex (sha1Bytes msg)

example : sha1Hex (strBytes "abc") = "a9993e364706816aba3e25717850c26c9cd0d89d" := by decide

example : sha1Hex [] = "da39a3ee5e6b4b0d3255bfef95601890afd80709" := by decide

/-! ## Python value model for `_hash_object`'s duck-typed `typ` argument

`_hash_object(w, obj, typ)` interpolates `typ` into an f-string.  The
local write paths pass a `str` (`"blob"`, `"tree"`, `"commit"`); the
delta-resolution path inside `clone` passes the `bytes` value obtained
from `head.split(b" ")`.  Python's f-string renders a `bytes` value via
`repr`, e.g. `b"blob"` becomes the 7 characters `b'blob'`. -/

inductive PyVal where
  | str (s : String)
  | bytes (b : List Nat)
deriving DecidableEq

/-- Characters contributed by one byte inside Python's `repr` of a
`bytes` object quoted with quote character `q`. -/
def pyByteChars (q b : Nat) : List Char :=
  if b = 92 then [Char.ofNat 92, Char.ofNat 92]
  else if b = 9 then [Char.ofNat 92, Char.ofNat 116]
  else if b = 10 then [Char.ofNat 92, Char.ofNat 110]
  else if b = 13 then [Char.ofNat 92, Char.ofNat 114]
  else if b = q then [Char.ofNat 92, Char.ofNat q]
  else if 32 ≤ b ∧ b ≤ 126 then [Char.ofNat b]
  else [Char.ofNat 92, Char.ofNat 120, hexDigit (b / 16), hexDigit (b % 16)]

/-- Python `repr` of a `bytes` object (what `str(b)` / an f-string
produce): a `b` prefix, a quote, the escaped bytes, a closing quote. -/
def pyBytesRepr (bs : List Nat) : String :=
  let q : Nat := if bs.contains 39 ∧ ¬ bs.contains 34 then 34 else 39
  ⟨Char.ofNat 98 :: Char.ofNat q :: (bs.map (pyByteChars q)).flatten ++ [Char.ofNat q]⟩

/-- Python `format(v)` as used by an f-string field `{v}`. -/
def pyFormat : PyVal → String
  | .str s => s
  | .bytes b => pyBytesRepr b

/-! ## Object store (`_hash_object`, `cat_file`)

The store maps a 40-hex OID to the bytes of the loose-object file
`.git/objects/xx/yyyy…` (the source's path scheme splits the hex at
index 2; the two pieces together are exactly the OID, so a map keyed by
the OID is the same store).  `zlib.compress`/`zlib.decompress` are
passed in as parameters. -/

/-- The on-disk object store: hex OID to stored file bytes. -/
def Store : Type := String → Option (List Nat)

/-- The empty object store (fresh `.git/objects`). -/
def emptyStore : Store := fun _ => none

/-- Model of `_hash_object(w, obj, typ)` (src/app/main.py:35-48): frame the
content as `f"{typ} {len(content)}\0".encode() + content`, hash it,
and if `w` write the compressed frame at the OID's path.  Returns the
hex OID and the (possibly updated) store. -/
def hashObjectCore (compress : List Nat → List Nat) (w : Bool) (store : Store)
    (typ : PyVal) (content : List Nat) : String × Store :=
  let blob := strBytes (pyFormat typ) ++ [32] ++ decimalBytes content.length
      ++ [0] ++ content
  let p := sha1Hex blob
  if w then
    (p, fun k => if k = p then some (compress blob) else store k)
  else (p, store)

/-- The Object Store's `put`: `_hash_object` with the write flag set and
a `str`-typed `typ`, as called by `hash_object`, `_write_tree` and
`commit_tree`. -/
def putObject (compress : List Nat → List Nat) (store : Store) (typ : String)
    (content : List Nat) : String × Store :=
  hashObjectCore compress true store (.str typ) content

deriving instance DecidableEq for Except

/-- Errors for the Python exceptions the modelled code can raise. -/
inductive PyErr where
  | fileNotFound
  | valueErr
  | assertionErr
  | indexErr
  | zlibErr
deriving DecidableEq

/-- The Object Store's `get` (`cat_file`, src/app/main.py:51-60): read
the stored bytes, decompress, split the frame at the first NUL, split
the header on spaces into type and declared length, and check the
declared length against the content.  Returns the type field and the
content. -/
def getObject (decompress : List Nat → List Nat) (store : Store) (oid : String) :
    Except PyErr (List Nat × List Nat) :=
  match store oid with
  | none => .error .fileNotFound
  | some data =>
    let raw := decompress data
    match splitFirst 0 raw with
    | none => .error .valueErr
    | some (head, content) =>
      match splitAll 32 head with
      | [typ, sz] =>
        match parseDecimal sz with
        | none => .error .valueErr
        | some n =>
          if content.length = n then .ok (typ, content) else .error .assertionErr
      | _ => .error .valueErr

/-! ## Tree codec (`ls_tree` decode, `_write_tree` encode) -/

/-- Body decoder loop of `ls_tree` (src/app/main.py:74-81): find the
next NUL, split the pre-NUL chunk on spaces into mode and name
(`x.split(b" ")`, which requires exactly two space-separated fields),
take the following 20 bytes as the OID, recurse on the remainder.
`fuel ≥ content.length` makes the result exact. -/
def parseTreeAux : Nat → List Nat → Except PyErr (List (List Nat × List Nat × List Nat))
  | _, [] => .ok []
  | 0, _ => .error .indexErr
  | fuel + 1, content =>
    match findNul content with
    | none => .ok []
    | some pos =>
      let x := content.take pos
      let sha := (content.drop (pos + 1)).take 20
      match splitAll 32 x with
      | [mode, name] =>
        (parseTreeAux fuel (content.drop (pos + 21))).map
          (fun rest => (mode, name, sha) :: rest)
      | _ => .error .valueErr

/-- Decode a tree object body into `(mode, name, oid)` triples. -/
def parseTreeBody (content : List Nat) : Except PyErr (List (List Nat × List Nat × List Nat)) :=
  parseTreeAux content.length content

/-- One encoded tree entry: `f"{mode} {name}\0".encode() + hash`
(src/app/main.py:134-136). -/
def treeEntryBytes (mode name : String) (h : List Nat) : List Nat :=
  strBytes mode ++ [32] ++ strBytes name ++ [0] ++ h

/-- Lexicographic order on byte lists: Python compares the `str` names
by code point, which is the same order as lexicographic comparison of
their UTF-8 bytes. -/
def bytesLt : List Nat → List Nat → Bool
  | [], [] => false
  | [], _ :: _ => true
  | _ :: _, [] => false
  | a :: as, b :: bs => if a < b then true else if b < a then false else bytesLt as bs

/-- Stable insertion of an entry into a list sorted by the name
component, modelling the stability and key of Python's
`files_hash.sort(key=lambda x: x[1])`. -/
def insertEntry (e : String × String × List Nat) :
    List (String × String × List Nat) → List (String × String × List Nat)
  | [] => [e]
  | y :: ys =>
    if bytesLt (strBytes y.2.1) (strBytes e.2.1) then y :: insertEntry e ys
    else e :: y :: ys

/-- Python's stable `sort(key=lambda x: x[1])` on `(mode, name, hash)`
triples: sorts by the name alone. -/
def sortByName : List (String × String × List Nat) → List (String × String × List Nat)
  | [] => []
  | x :: xs => insertEntry x (sortByName xs)

/-- The tree body built by `_write_tree` (src/app/main.py:133-136) from
the `(mode, relative-name, 20-byte-hash)` triples collected for one
directory: sort by name, then concatenate the encoded entries. -/
def writeTreeBody (entries : List (String × String × List Nat)) : List Nat :=
  ((sortByName entries).map (fun e => treeEntryBytes e.1 e.2.1 e.2.2)).flatten

/-! ## Commit encoder (`commit_tree`, src/app/main.py:144-155) -/

/-- The commit object bytes built by `commit_tree`: a
`f"tree {tree_ish} \n"` line, an optional `f"parent {p} \n"` line, the
hard-coded author line with the timestamp and timezone, a blank line,
and the optional message plus newline. -/
def commitBytes (treeIsh : String) (p : Option String) (m : Option String)
    (ts : Nat) (tz : String) : List Nat :=
  strBytes ("tree " ++ treeIsh ++ " \n")
  ++ (match p with
      | some pp => strBytes ("parent " ++ pp ++ " \n")
      | none => [])
  ++ strBytes ("author cndoit18 <cndoit18@outlook.com> " ++ Nat.repr ts ++ " " ++ tz ++ "\n")
  ++ [10]
  ++ (match m with
      | some mm => strBytes mm ++ [10]
      | none => [])

/-- The bytes of one line of a byte buffer: everything before the first
newline. -/
def firstLine (bs : List Nat) : List Nat :=
  bs.takeWhile (fun b => b ≠ 10)

/-! ## Fetch-response checksum check (`clone`, src/app/main.py:226-228)

`nak, packfile = resp.content.split(b"\n", 1)` discards the pkt-line
holding `NAK`, then the trailing 20 bytes of `packfile` are checked
against the SHA-1 of the bytes of `packfile` that precede them. -/

/-- The response validation performed before pack parsing: split the
response at the first newline, require the NAK line, then check the
trailing checksum of the remainder.  Returns the packfile bytes. -/
def checkFetchResponse (respContent : List Nat) : Except PyErr (List Nat) :=
  match splitFirst 10 respContent with
  | none => .error .valueErr
  | some (nak, packfile) =>
    if nak.drop 4 = strBytes "NAK" then
      if takeLast 20 packfile = sha1Bytes (dropLastN 20 packfile) then .ok packfile
      else .error .assertionErr
    else .error .assertionErr

/-- The integrity property as the specification states it: the final 20
bytes of the whole response equal the SHA-1 of all preceding response
bytes.  (Stated from the spec's words, for comparison with
`checkFetchResponse`, which hashes only the post-NAK-line bytes.) -/
def specWholeResponseCheck (respContent : List Nat) : Prop :=
  takeLast 20 respContent = sha1Bytes (dropLastN 20 respContent)

instance (resp : List Nat) : Decidable (specWholeResponseCheck resp) := by
  unfold specWholeResponseCheck; infer_instance

/-! ## Packfile parsing (`clone`, src/app/main.py:229-272)

The zlib streaming decompressor is modelled by a parameter
`inflate : List Nat → Nat → Option (List Nat × List Nat)`: given the
remaining pack bytes and the `max_length` bound it returns the
decompressed record body and the unused trailing input
(`decompressor.unused_data`), or `none` for a `zlib.error`.  The source
stores literal records via `_hash_object` as it parses; storing does
not feed back into parsing, so the model returns the parsed records
and leaves the store updates to the caller. -/

/-- A parsed pack record: a literal object (type tag 1, 2 or 3) or a
ref-delta (any other tag) with its 20 base-OID bytes. -/
inductive PackRecord where
  | literal (objType : Nat) (raw : List Nat)
  | refDelta (base : List Nat) (raw : List Nat)
deriving DecidableEq

/-- The size-varint continuation loop (src/app/main.py:245-249):
`while byte & 0x80 and len(pack) > 0`, each following byte contributing
7 bits at the running shift. -/
def parseSizeLoop (byte size shift : Nat) : List Nat → Nat × List Nat
  | [] => (size, [])
  | b :: rest =>
    if byte &&& 0x80 ≠ 0 then
      parseSizeLoop b (size ||| ((b &&& 0x7F) <<< shift)) (shift + 7) rest
    else (size, b :: rest)

/-- The record loop (`for _ in range(obj_len)`, src/app/main.py:239-272):
parse exactly `n` records, returning them with the leftover bytes. -/
def parseRecords (inflate : List Nat → Nat → Option (List Nat × List Nat)) :
    Nat → List Nat → Except PyErr (List PackRecord × List Nat)
  | 0, pack => .ok ([], pack)
  | n + 1, pack =>
    match pack with
    | [] => .error .indexErr
    | b :: rest =>
      let objType := (b >>> 4) &&& 0x07
      let (size, pack1) := parseSizeLoop b (b &&& 0x0F) 4 rest
      if objType = 1 ∨ objType = 2 ∨ objType = 3 then
        match inflate pack1 size with
        | none => .error .zlibErr
        | some (raw, unused) =>
          if raw.length = size then
            (parseRecords inflate n unused).map
              (fun p => (PackRecord.literal objType raw :: p.1, p.2))
          else .error .assertionErr
      else
        let base := pack1.take 20
        match inflate (pack1.drop 20) size with
        | none => .error .zlibErr
        | some (raw, unused) =>
          if raw.length = size then
            (parseRecords inflate n unused).map
              (fun p => (PackRecord.refDelta base raw :: p.1, p.2))
          else .error .assertionErr

/-- Packfile header checks and record loop (src/app/main.py:229-272):
magic `PACK`, big-endian version = 2, big-endian object count, then
exactly that many records.  Bytes left over after the declared count
are returned untouched. -/
def parsePack (inflate : List Nat → Nat → Option (List Nat × List Nat))
    (packfile : List Nat) : Except PyErr (List PackRecord × List Nat) :=
  if packfile.take 4 = strBytes "PACK" then
    if beNat ((packfile.drop 4).take 4) = 2 then
      parseRecords inflate (beNat ((packfile.drop 8).take 4)) (packfile.drop 12)
    else .error .assertionErr
  else .error .assertionErr

/-! ## Delta resolution (`clone`, src/app/main.py:274-320, and
`process_var_int`, src/app/main.py:363-372) -/

/-- Model of `process_var_int`: little-endian base-128 varint with a
continuation bit; the final byte's contribution is added.  `none` when
the bytes run out (`IndexError`). -/
def processVarIntAux (shift var : Nat) : List Nat → Option (Nat × List Nat)
  | [] => none
  | c :: rest =>
    if c &&& 0x80 ≠ 0 then
      processVarIntAux (shift + 7) (var ||| ((c &&& 0x7F) <<< shift)) rest
    else some (var + ((c &&& 0x7F) <<< shift), rest)

/-- Model of `process_var_int(raw)`. -/
def processVarInt (raw : List Nat) : Option (Nat × List Nat) :=
  processVarIntAux 0 0 raw

/-- The copy-instruction operand loop (src/app/main.py:297-302 and
305-310): for each set low bit of `bits`, consume one byte into the
accumulator at the running shift.  `fuel ≥ bits` makes the result
exact; `none` is an `IndexError` on exhausted input. -/
def readMaskAux : Nat → Nat → Nat → Nat → List Nat → Option (Nat × List Nat)
  | _, 0, _, acc, raw => some (acc, raw)
  | 0, _ + 1, _, _, _ => none
  | fuel + 1, bits, shift, acc, raw =>
    if bits % 2 = 1 then
      match raw with
      | [] => none
      | b :: rest => readMaskAux fuel (bits / 2) (shift + 8) (acc ||| (b <<< shift)) rest
    else readMaskAux fuel (bits / 2) (shift + 8) acc raw

/-- Read the bytes selected by the bit mask `bits`, least significant
bit first, 8 shift bits per position. -/
def readMaskBytes (bits : Nat) (raw : List Nat) : Option (Nat × List Nat) :=
  readMaskAux bits bits 0 0 raw

/-- Delta errors: the `assert offset + size <= source_size` failure is
`deltaRange`; other asserts and exhausted input are as in `PyErr`. -/
inductive DeltaErr where
  | deltaRange
  | assertionErr
  | indexErr
deriving DecidableEq

/-- The instruction replay loop (`while raw`, src/app/main.py:289-318).
An instruction byte with the high bit set is a copy: the low 4 bits
mask the offset bytes, bits 4-6 mask the size bytes, size 0 means
0x1000, and `offset + size <= source_size` is asserted before
appending `content[offset : offset + size]`.  A byte with the high bit
clear is an insert of its low 7 bits' worth of literal bytes.  `fuel ≥
raw.length` makes the result exact. -/
def replayAux (content : List Nat) (srcSize : Nat) :
    Nat → List Nat → List Nat → Except DeltaErr (List Nat)
  | _, [], acc => .ok acc
  | 0, _ :: _, _ => .error .indexErr
  | fuel + 1, b :: raw, acc =>
    if b &&& 0x80 ≠ 0 then
      match readMaskBytes (b &&& 0x0F) raw with
      | none => .error .indexErr
      | some (offset, raw1) =>
        match readMaskBytes ((b >>> 4) &&& 0x07) raw1 with
        | none => .error .indexErr
        | some (size0, raw2) =>
          let size := if size0 = 0 then 0x1000 else size0
          if offset + size ≤ srcSize then
            replayAux content srcSize fuel raw2 (acc ++ (content.drop offset).take size)
          else .error .deltaRange
    else
      let size := b &&& 0x7F
      let data := raw.take size
      if data.length = size then
        replayAux content srcSize fuel (raw.drop size) (acc ++ data)
      else .error .assertionErr

/-- Replay a delta instruction stream against the base `content`. -/
def replayDelta (content : List Nat) (srcSize : Nat) (raw acc : List Nat) :
    Except DeltaErr (List Nat) :=
  replayAux content srcSize raw.length raw acc

/-- Resolution of one queued ref-delta (src/app/main.py:274-320): parse
the source and target size varints, load and decode the base object
from the store, check the declared source size against the base
content's length, replay the instructions, check the target size, and
store the result via `_hash_object` — passing the base's type **as the
`bytes` value** produced by `head.split(b" ")`. -/
def resolveDelta (compress decompress : List Nat → List Nat) (store : Store)
    (sha : String) (raw0 : List Nat) : Except DeltaErr (String × Store) :=
  match processVarInt raw0 with
  | none => .error .indexErr
  | some (sourceSize, raw1) =>
    match processVarInt raw1 with
    | none => .error .indexErr
    | some (targetSize, raw2) =>
      match store sha with
      | none => .error .indexErr  -- a missing base file raises (FileNotFoundError)
      | some data =>
        let original := decompress data
        match splitFirst 0 original with
        | none => .error .assertionErr
        | some (head, content) =>
          match splitAll 32 head with
          | [typ, si] =>
            match parseDecimal si with
            | none => .error .assertionErr
            | some n =>
              if content.length = n then
                if sourceSize = n then
                  match replayDelta content sourceSize raw2 [] with
                  | .error e => .error e
                  | .ok target =>
                    if target.length = targetSize then
                      .ok (hashObjectCore compress true store (.bytes typ) target)
                    else .error .assertionErr
                else .error .assertionErr
              else .error .assertionErr
          | _ => .error .assertionErr

/-- The bytes of the second line of a byte buffer. -/
def secondLine (bs : List Nat) : List Nat :=
  firstLine (bs.drop ((firstLine bs).length + 1))

/-! ## Supporting lemmas -/

theorem strBytes_append (a b : String) : strBytes (a ++ b) = strBytes a ++ strBytes b := by
  simp [strBytes]

theorem take_len_app (A B : List Nat) : (A ++ B).take A.length = A := by
  induction A with
  | nil => rfl
  | cons a as ih => simp [ih]

theorem drop_len_app (A B : List Nat) : (A ++ B).drop A.length = B := by
  induction A with
  | nil => rfl
  | cons a as ih => simp [ih]

theorem drop_len_add_app (A B : List Nat) (n : Nat) :
    (A ++ B).drop (A.length + n) = B.drop n := by
  induction A with
  | nil => simp
  | cons a as ih => simp [Nat.succ_add, ih]

theorem splitFirst_append (sep : Nat) (A B : List Nat) (h : sep ∉ A) :
    splitFirst sep (A ++ sep :: B) = some (A, B) := by
  induction A with
  | nil => simp [splitFirst]
  | cons a as ih =>
    have ha : a ≠ sep := fun hq => h (hq ▸ List.mem_cons_self a as)
    have has : sep ∉ as := fun hq => h (List.mem_cons_of_mem a hq)
    simp [splitFirst, ha, ih has]

theorem splitFirst_inv (sep : Nat) :
    ∀ bs a b, splitFirst sep bs = some (a, b) → bs = a ++ sep :: b ∧ sep ∉ a := by
  intro bs
  induction bs with
  | nil => intro a b h; simp [splitFirst] at h
  | cons x xs ih =>
    intro a b h
    by_cases hx : x = sep
    · simp only [splitFirst, if_pos hx, Option.some.injEq, Prod.mk.injEq] at h
      obtain ⟨ha, hb⟩ := h
      subst ha; subst hb
      simp [hx]
    · simp only [splitFirst, if_neg hx] at h
      cases hsf : splitFirst sep xs with
      | none => rw [hsf] at h; simp at h
      | some p =>
        rw [hsf] at h
        simp only [Option.map, Option.some.injEq, Prod.mk.injEq] at h
        obtain ⟨ha, hb⟩ := h
        obtain ⟨hxs, hsp⟩ := ih p.1 p.2 hsf
        subst ha; subst hb
        refine ⟨by simp [hxs], ?_⟩
        intro hc
        rcases List.mem_cons.mp hc with hc | hc
        · exact hx hc.symm
        · exact hsp hc

theorem splitAll_not_mem (sep : Nat) (B : List Nat) (h : sep ∉ B) :
    splitAll sep B = [B] := by
  induction B with
  | nil => rfl
  | cons b bs ih =>
    have hb : b ≠ sep := fun hq => h (hq ▸ List.mem_cons_self b bs)
    have hbs : sep ∉ bs := fun hq => h (List.mem_cons_of_mem b hq)
    simp [splitAll, hb, ih hbs]

theorem splitAll_append (sep : Nat) (A B : List Nat) (h : sep ∉ A) :
    splitAll sep (A ++ sep :: B) = A :: splitAll sep B := by
  induction A with
  | nil => simp [splitAll]
  | cons a as ih =>
    have ha : a ≠ sep := fun hq => h (hq ▸ List.mem_cons_self a as)
    have has : sep ∉ as := fun hq => h (List.mem_cons_of_mem a hq)
    simp [splitAll, ha, ih has]

theorem findNul_append (A B : List Nat) (h : (0 : Nat) ∉ A) :
    findNul (A ++ 0 :: B) = some A.length := by
  induction A with
  | nil => simp [findNul]
  | cons a as ih =>
    have ha : a ≠ 0 := fun hq => h (hq ▸ List.mem_cons_self a as)
    have has : (0 : Nat) ∉ as := fun hq => h (List.mem_cons_of_mem a hq)
    simp [findNul, ha, ih has]

theorem takeWhile_middle (p : Nat → Bool) (x : Nat) (A B : List Nat)
    (hA : ∀ a ∈ A, p a = true) (hx : p x = false) :
    (A ++ x :: B).takeWhile p = A := by
  induction A with
  | nil => simp [List.takeWhile_cons, hx]
  | cons a as ih =>
    have ha : p a = true := hA a (List.mem_cons_self a as)
    have has : ∀ y ∈ as, p y = true := fun y hy => hA y (List.mem_cons_of_mem a hy)
    simp [List.takeWhile_cons, ha, ih has]

theorem firstLine_append (A B : List Nat) (h : ∀ a ∈ A, a ≠ 10) :
    firstLine (A ++ 10 :: B) = A := by
  unfold firstLine
  exact takeWhile_middle _ 10 A B (fun a ha => decide_eq_true (h a ha)) rfl

/-- Value of a little-endian digit list. -/
def valLE : List Nat → Nat
  | [] => 0
  | d :: ds => d + 10 * valLE ds

theorem digitsAux_sound : ∀ fuel n, n ≤ fuel →
    valLE (digitsAux fuel n) = n ∧ ∀ d ∈ digitsAux fuel n, d < 10 := by
  intro fuel
  induction fuel with
  | zero =>
    intro n hn
    have : n = 0 := Nat.le_zero.mp hn
    subst this
    exact ⟨by simp [digitsAux, valLE], by simp [digitsAux]⟩
  | succ f ih =>
    intro n hn
    by_cases h10 : n < 10
    · refine ⟨by simp [digitsAux, h10, valLE], ?_⟩
      intro d hd
      simp [digitsAux, h10] at hd
      omega
    · have hpos : 0 < n := by omega
      have hlt : n / 10 < n := Nat.div_lt_self hpos (by omega)
      have hdiv : n / 10 ≤ f := by omega
      obtain ⟨hv, hd⟩ := ih (n / 10) hdiv
      constructor
      · simp only [digitsAux, if_neg h10, valLE, hv]
        exact Nat.mod_add_div n 10
      · intro d hd'
        simp only [digitsAux, if_neg h10, List.mem_cons] at hd'
        rcases hd' with rfl | hd'
        · exact Nat.mod_lt n (by omega)
        · exact hd d hd'

theorem digitsAux_ne_nil (fuel n : Nat) : digitsAux fuel n ≠ [] := by
  cases fuel with
  | zero => exact List.cons_ne_nil _ _
  | succ f =>
    simp only [digitsAux]
    split
    · exact List.cons_ne_nil _ _
    · exact List.cons_ne_nil _ _

theorem decimalBytes_range (n : Nat) : ∀ d ∈ decimalBytes n, 48 ≤ d ∧ d ≤ 57 := by
  intro d hd
  obtain ⟨x, hx, rfl⟩ := List.mem_map.mp hd
  have := (digitsAux_sound n n (Nat.le_refl n)).2 x (List.mem_reverse.mp hx)
  omega

theorem parseDecimalAux_append (A B : List Nat) :
    ∀ acc, parseDecimalAux acc (A ++ B)
      = (parseDecimalAux acc A).bind (fun v => parseDecimalAux v B) := by
  induction A with
  | nil => intro acc; simp [parseDecimalAux]
  | cons d ds ih =>
    intro acc
    by_cases h : 48 ≤ d ∧ d ≤ 57 <;> simp [parseDecimalAux, h, ih]

theorem parseDecimalAux_digits (ds : List Nat) (h : ∀ d ∈ ds, d < 10) :
    ∀ acc, parseDecimalAux acc (ds.reverse.map (· + 48))
      = some (acc * 10 ^ ds.length + valLE ds) := by
  induction ds with
  | nil => intro acc; simp [parseDecimalAux, valLE]
  | cons d ds ih =>
    intro acc
    have hd : d < 10 := h d (List.mem_cons_self d ds)
    have hds : ∀ x ∈ ds, x < 10 := fun x hx => h x (List.mem_cons_of_mem d hx)
    rw [List.reverse_cons, List.map_append, parseDecimalAux_append, ih hds acc]
    rw [show ∀ f : Nat → Option Nat, (some (acc * 10 ^ ds.length + valLE ds)).bind f
          = f (acc * 10 ^ ds.length + valLE ds) from fun _ => rfl]
    simp only [List.map_cons, List.map_nil, parseDecimalAux]
    rw [if_pos (by omega)]
    simp only [valLE, List.length_cons, pow_succ]
    congr 1
    have h48 : d + 48 - 48 = d := by omega
    rw [h48]
    ring

theorem parseDecimal_decimalBytes (n : Nat) : parseDecimal (decimalBytes n) = some n := by
  obtain ⟨hv, hd⟩ := digitsAux_sound n n (Nat.le_refl n)
  have hne : decimalBytes n ≠ [] := by
    simp only [decimalBytes]
    intro hc
    exact digitsAux_ne_nil n n (by simpa using hc)
  rw [parseDecimal, if_neg (by exact hne)]
  rw [show decimalBytes n = (digitsAux n n).reverse.map (· + 48) from rfl]
  rw [parseDecimalAux_digits (digitsAux n n) hd 0]
  simp [hv]

/-- The tree-body decoder does not depend on the fuel once the fuel
covers the input length. -/
theorem parseTreeAux_irrel : ∀ f g content, content.length ≤ f → content.length ≤ g →
    parseTreeAux f content = parseTreeAux g content := by
  intro f
  induction f with
  | zero =>
    intro g content hf _
    have : content = [] := List.length_eq_zero.mp (Nat.le_zero.mp hf)
    subst this
    cases g <;> rfl
  | succ f ih =>
    intro g content hf hg
    cases content with
    | nil => cases g <;> rfl
    | cons c rest =>
      cases g with
      | zero => simp at hg
      | succ g =>
        simp only [parseTreeAux]
        cases hfn : findNul (c :: rest) with
        | none => rfl
        | some pos =>
          cases hsp : splitAll 32 ((c :: rest).take pos) with
          | nil => simp [hsp]
          | cons m ms =>
            cases ms with
            | nil => simp [hsp]
            | cons nm ms2 =>
              cases ms2 with
              | nil =>
                have hlen : ((c :: rest).drop (pos + 21)).length ≤ f ∧
                    ((c :: rest).drop (pos + 21)).length ≤ g := by
                  simp only [List.length_drop, List.length_cons] at *
                  omega
                simp only [hsp]
                rw [ih g ((c :: rest).drop (pos + 21)) hlen.1 hlen.2]
              | cons _ _ => simp [hsp]

/-- The operand reader never lengthens the remaining input. -/
theorem readMaskAux_le : ∀ f bits shift acc raw v r,
    readMaskAux f bits shift acc raw = some (v, r) → r.length ≤ raw.length := by
  intro f
  induction f with
  | zero =>
    intro bits shift acc raw v r h
    cases bits with
    | zero =>
      simp only [readMaskAux, Option.some.injEq, Prod.mk.injEq] at h
      rw [← h.2]
    | succ b => simp [readMaskAux] at h
  | succ f ih =>
    intro bits shift acc raw v r h
    cases bits with
    | zero =>
      simp only [readMaskAux, Option.some.injEq, Prod.mk.injEq] at h
      rw [← h.2]
    | succ b =>
      simp only [readMaskAux] at h
      by_cases hodd : (b + 1) % 2 = 1
      · rw [if_pos hodd] at h
        cases raw with
        | nil => simp at h
        | cons x rest =>
          have := ih _ _ _ _ _ _ h
          simp only [List.length_cons]
          omega
      · rw [if_neg hodd] at h
        exact ih _ _ _ _ _ _ h

/-- The delta replay loop does not depend on the fuel once the fuel
covers the instruction stream length. -/
theorem replayAux_irrel (content : List Nat) (srcSize : Nat) :
    ∀ f g raw acc, raw.length ≤ f → raw.length ≤ g →
      replayAux content srcSize f raw acc = replayAux content srcSize g raw acc := by
  intro f
  induction f with
  | zero =>
    intro g raw acc hf _
    have : raw = [] := List.length_eq_zero.mp (Nat.le_zero.mp hf)
    subst this
    cases g <;> rfl
  | succ f ih =>
    intro g raw acc hf hg
    cases raw with
    | nil => cases g <;> rfl
    | cons b rest =>
      cases g with
      | zero => simp at hg
      | succ g =>
        simp only [replayAux]
        by_cases hcopy : b &&& 0x80 ≠ 0
        · rw [if_pos hcopy, if_pos hcopy]
          cases h1 : readMaskBytes (b &&& 0x0F) rest with
          | none => rfl
          | some p1 =>
            obtain ⟨off1, raw1⟩ := p1
            dsimp only
            cases h2 : readMaskBytes ((b >>> 4) &&& 0x07) raw1 with
            | none => rfl
            | some p2 =>
              obtain ⟨sz2, raw2⟩ := p2
              dsimp only
              have hle1 : raw1.length ≤ rest.length := readMaskAux_le _ _ _ _ _ _ _ h1
              have hle2 : raw2.length ≤ raw1.length := readMaskAux_le _ _ _ _ _ _ _ h2
              by_cases hrange : off1 + (if sz2 = 0 then 0x1000 else sz2) ≤ srcSize
              · rw [if_pos hrange, if_pos hrange]
                apply ih
                · simp only [List.length_cons] at hf; omega
                · simp only [List.length_cons] at hg; omega
              · rw [if_neg hrange, if_neg hrange]
        · rw [if_neg hcopy, if_neg hcopy]
          by_cases hins : (rest.take (b &&& 0x7F)).length = b &&& 0x7F
          · rw [if_pos hins, if_pos hins]
            apply ih
            · simp only [List.length_cons, List.length_drop] at *; omega
            · simp only [List.length_cons, List.length_drop] at *; omega
          · rw [if_neg hins, if_neg hins]

/-- Successful record parsing returns exactly the requested number of
records. -/
theorem parseRecords_length (inflate : List Nat → Nat → Option (List Nat × List Nat)) :
    ∀ n pack recs leftover, parseRecords inflate n pack = .ok (recs, leftover) →
      recs.length = n := by
  intro n
  induction n with
  | zero =>
    intro pack recs leftover h
    simp only [parseRecords, Except.ok.injEq, Prod.mk.injEq] at h
    rw [← h.1]
    rfl
  | succ n ih =>
    intro pack recs leftover h
    cases pack with
    | nil => simp [parseRecords] at h
    | cons b rest =>
      simp only [parseRecords] at h
      by_cases hlit : ((b >>> 4) &&& 0x07) = 1 ∨ ((b >>> 4) &&& 0x07) = 2 ∨ ((b >>> 4) &&& 0x07) = 3
      · rw [if_pos hlit] at h
        cases hinf : inflate (parseSizeLoop b (b &&& 0x0F) 4 rest).2
            (parseSizeLoop b (b &&& 0x0F) 4 rest).1 with
        | none => rw [hinf] at h; simp at h
        | some pr =>
          obtain ⟨raw, unused⟩ := pr
          rw [hinf] at h
          dsimp only at h
          by_cases hsz : raw.length = (parseSizeLoop b (b &&& 0x0F) 4 rest).1
          · rw [if_pos hsz] at h
            cases hrec : parseRecords inflate n unused with
            | error e => rw [hrec] at h; simp [Except.map] at h
            | ok p =>
              rw [hrec] at h
              simp only [Except.map, Except.ok.injEq, Prod.mk.injEq] at h
              rw [← h.1]
              simp [ih unused p.1 p.2 (by rw [hrec])]
          · rw [if_neg hsz] at h; simp at h
      · rw [if_neg hlit] at h
        cases hinf : inflate ((parseSizeLoop b (b &&& 0x0F) 4 rest).2.drop 20)
            (parseSizeLoop b (b &&& 0x0F) 4 rest).1 with
        | none => rw [hinf] at h; simp at h
        | some pr =>
          obtain ⟨raw, unused⟩ := pr
          rw [hinf] at h
          dsimp only at h
          by_cases hsz : raw.length = (parseSizeLoop b (b &&& 0x0F) 4 rest).1
          · rw [if_pos hsz] at h
            cases hrec : parseRecords inflate n unused with
            | error e => rw [hrec] at h; simp [Except.map] at h
            | ok p =>
              rw [hrec] at h
              simp only [Except.map, Except.ok.injEq, Prod.mk.injEq] at h
              rw [← h.1]
              simp [ih unused p.1 p.2 (by rw [hrec])]
          · rw [if_neg hsz] at h; simp at h

/-! ## Claim theorems -/

/-- Unfolds `putObject` to its explicit hash/store form. -/
theorem putObject_eq (compress : List Nat → List Nat) (store : Store) (T : String)
    (C : List Nat) :
    putObject compress store T C
      = (sha1Hex (strBytes T ++ [32] ++ decimalBytes C.length ++ [0] ++ C),
         fun k => if k = sha1Hex (strBytes T ++ [32] ++ decimalBytes C.length ++ [0] ++ C)
           then some (compress (strBytes T ++ [32] ++ decimalBytes C.length ++ [0] ++ C))
           else store k) := rfl

/-- C2: for every object type `T` in `{blob, tree, commit}` and every
content buffer `C`, storing `C` with `put(T, C)` and then retrieving
the resulting OID with `get` returns exactly the pair `(T, C)` (the
type as its encoded bytes), for any compression codec that
round-trips. -/
theorem put_get_roundtrip (compress decompress : List Nat → List Nat)
    (hcd : ∀ bs, decompress (compress bs) = bs)
    (T : String) (hT : T = "blob" ∨ T = "tree" ∨ T = "commit")
    (store : Store) (C : List Nat) :
    getObject decompress (putObject compress store T C).2 (putObject compress store T C).1
      = .ok (strBytes T, C) := by
  have h0T : (0 : Nat) ∉ strBytes T := by
    rcases hT with rfl | rfl | rfl <;> decide
  have h32T : (32 : Nat) ∉ strBytes T := by
    rcases hT with rfl | rfl | rfl <;> decide
  have h0D : (0 : Nat) ∉ decimalBytes C.length := by
    intro hc; have := decimalBytes_range C.length 0 hc; omega
  have h32D : (32 : Nat) ∉ decimalBytes C.length := by
    intro hc; have := decimalBytes_range C.length 32 hc; omega
  have h0A : (0 : Nat) ∉ strBytes T ++ 32 :: decimalBytes C.length := by
    intro hc
    rcases List.mem_append.mp hc with hc | hc
    · exact h0T hc
    · rcases List.mem_cons.mp hc with hc | hc
      · omega
      · exact h0D hc
  have hlook : (putObject compress store T C).2 (putObject compress store T C).1
      = some (compress (strBytes T ++ [32] ++ decimalBytes C.length ++ [0] ++ C)) := by
    rw [putObject_eq]
    simp
  have hblob : strBytes T ++ [32] ++ decimalBytes C.length ++ [0] ++ C
      = (strBytes T ++ 32 :: decimalBytes C.length) ++ 0 :: C := by simp
  have hsplit : splitAll 32 (strBytes T ++ 32 :: decimalBytes C.length)
      = [strBytes T, decimalBytes C.length] := by
    rw [splitAll_append 32 _ _ h32T, splitAll_not_mem 32 _ h32D]
  simp only [getObject, hlook, hcd, hblob,
    splitFirst_append 0 (strBytes T ++ 32 :: decimalBytes C.length) C h0A,
    hsplit, parseDecimal_decimalBytes]
  simp

/-- C2 witness: a concrete round-trip through the store with the
identity codec. -/
theorem put_get_roundtrip_witness :
    (∀ bs : List Nat, id (id bs) = bs) ∧
    getObject id (putObject id emptyStore "blob" [104, 105]).2
      (putObject id emptyStore "blob" [104, 105]).1 = .ok (strBytes "blob", [104, 105]) :=
  ⟨fun _ => rfl,
   put_get_roundtrip id id (fun _ => rfl) "blob" (Or.inl rfl) emptyStore [104, 105]⟩

/-- C8: `_write_tree` sorts sibling entries by the bare name (the sort
key is `x[1]`, not the decorated `"mode name"` string) before the mode
prefix is attached, so for files `a.txt`, `b.txt` and a subdirectory
`d`, the encoded body lists `b.txt` before `d` whatever the hashes
are. -/
theorem writeTree_sorted_by_name (h1 h2 h3 : List Nat) :
    writeTreeBody [("40000", "d", h1), ("100644", "a.txt", h2), ("100644", "b.txt", h3)]
      = treeEntryBytes "100644" "a.txt" h2
        ++ (treeEntryBytes "100644" "b.txt" h3 ++ treeEntryBytes "40000" "d" h1) := by
  have hsort : sortByName
        [("40000", "d", h1), ("100644", "a.txt", h2), ("100644", "b.txt", h3)]
      = [("100644", "a.txt", h2), ("100644", "b.txt", h3), ("40000", "d", h1)] := rfl
  simp [writeTreeBody, hsort]

/-- C9: during delta replay an instruction byte `0x00` is a zero-length
insert: it consumes no further stream bytes, appends nothing, and
replay continues with the next instruction byte. -/
theorem replay_zero_byte_insert (content : List Nat) (srcSize : Nat) (rest acc : List Nat) :
    replayDelta content srcSize (0 :: rest) acc = replayDelta content srcSize rest acc := by
  simp [replayDelta, replayAux]

/-- C10: `_hash_object` with the write flag clear returns the same OID
as with the flag set, and leaves the object store unchanged. -/
theorem hashObject_no_write_same_oid (compress : List Nat → List Nat) (store : Store)
    (typ : PyVal) (content : List Nat) :
    (hashObjectCore compress false store typ content).1
      = (hashObjectCore compress true store typ content).1
    ∧ (hashObjectCore compress false store typ content).2 = store :=
  ⟨rfl, rfl⟩

/-- C7: a copy instruction with decoded offset `offset` and decoded
length field `size0` (0 meaning a default span of 4096 bytes) appends
exactly the base bytes `content[offset : offset + length]` when
`offset + length ≤ source size`, and fails with the range error
otherwise.  The resolver runs with `source size = content.length`
(asserted by the caller before replay). -/
theorem delta_copy_semantics (content raw acc : List Nat) (b offset size0 : Nat)
    (raw1 raw2 : List Nat)
    (hb : b &&& 0x80 ≠ 0)
    (h1 : readMaskBytes (b &&& 0x0F) raw = some (offset, raw1))
    (h2 : readMaskBytes ((b >>> 4) &&& 0x07) raw1 = some (size0, raw2)) :
    (offset + (if size0 = 0 then 0x1000 else size0) ≤ content.length →
      replayDelta content content.length (b :: raw) acc
        = replayDelta content content.length raw2
            (acc ++ (content.drop offset).take (if size0 = 0 then 0x1000 else size0))
      ∧ ((content.drop offset).take (if size0 = 0 then 0x1000 else size0)).length
          = (if size0 = 0 then 0x1000 else size0))
    ∧ (content.length < offset + (if size0 = 0 then 0x1000 else size0) →
      replayDelta content content.length (b :: raw) acc = .error .deltaRange) := by
  have hle1 : raw1.length ≤ raw.length := readMaskAux_le _ _ _ _ _ _ _ h1
  have hle2 : raw2.length ≤ raw1.length := readMaskAux_le _ _ _ _ _ _ _ h2
  have hunf : replayDelta content content.length (b :: raw) acc
      = replayAux content content.length (raw.length + 1) (b :: raw) acc := rfl
  constructor
  · intro hrange
    constructor
    · rw [hunf]
      simp only [replayAux, if_pos hb, h1, h2]
      rw [if_pos hrange]
      exact replayAux_irrel content content.length raw.length raw2.length raw2 _
        (le_trans hle2 hle1) (le_refl _)
    · simp only [List.length_take, List.length_drop]
      omega
  · intro hrange
    rw [hunf]
    simp only [replayAux, if_pos hb, h1, h2]
    rw [if_neg (by omega)]

/-- C7 witness: a concrete copy of 2 bytes at offset 1 out of a 5-byte
base. -/
theorem delta_copy_semantics_witness :
    ((0x91 &&& 0x80 ≠ 0)
      ∧ readMaskBytes (0x91 &&& 0x0F) [1, 2] = some (1, [2])
      ∧ readMaskBytes ((0x91 >>> 4) &&& 0x07) [2] = some (2, [])
      ∧ 1 + (if 2 = 0 then 0x1000 else 2) ≤ ([1, 2, 3, 4, 5] : List Nat).length)
    ∧ replayDelta [1, 2, 3, 4, 5] ([1, 2, 3, 4, 5] : List Nat).length [0x91, 1, 2] []
        = replayDelta [1, 2, 3, 4, 5] ([1, 2, 3, 4, 5] : List Nat).length []
            ([] ++ (([1, 2, 3, 4, 5] : List Nat).drop 1).take (if 2 = 0 then 0x1000 else 2)) :=
  ⟨⟨by decide, by decide, by decide, by decide⟩,
   ((delta_copy_semantics [1, 2, 3, 4, 5] [1, 2] [] 0x91 1 2 [2] []
      (by decide) (by decide) (by decide)).1 (by decide)).1⟩

/-- C5 counterexample: a tree entry whose name contains a space makes
the decoder fail (Python unpacks `x.split(b" ")`, which yields three
fields for `100644 a b`), instead of decoding `(mode, full name)` as
the claim states. -/
theorem tree_decode_space_name_cex :
    parseTreeBody (strBytes "100644 a b" ++ 0 :: List.replicate 20 170)
      = .error .valueErr := by decide

/-- C5 amended: the decoder splits the pre-NUL chunk on **every** space
and requires exactly two fields, so an entry whose mode and name are
space-free decodes as `(mode, name, oid)`; a name containing a space
makes decoding fail (see the counterexample). -/
theorem tree_decode_entry (mode name sha rest : List Nat)
    (hm0 : (0 : Nat) ∉ mode) (hn0 : (0 : Nat) ∉ name)
    (hm32 : (32 : Nat) ∉ mode) (hn32 : (32 : Nat) ∉ name)
    (hsha : sha.length = 20) :
    parseTreeBody (mode ++ 32 :: name ++ 0 :: sha ++ rest)
      = (parseTreeBody rest).map (fun es => (mode, name, sha) :: es) := by
  set A := mode ++ 32 :: name with hA
  set X := mode ++ 32 :: name ++ 0 :: sha ++ rest with hXdef
  have hXA : X = A ++ 0 :: (sha ++ rest) := by simp [hXdef, hA]
  have h0A : (0 : Nat) ∉ A := by
    intro hc
    rcases List.mem_append.mp hc with hc | hc
    · exact hm0 hc
    · rcases List.mem_cons.mp hc with hc | hc
      · omega
      · exact hn0 hc
  have hfind : findNul X = some A.length := by
    rw [hXA]; exact findNul_append A (sha ++ rest) h0A
  have htake : X.take A.length = A := by rw [hXA]; exact take_len_app A _
  have hXsplit : X = (A ++ [0]) ++ (sha ++ rest) := by simp [hXA]
  have hsha20 : (X.drop (A.length + 1)).take 20 = sha := by
    rw [hXsplit, show A.length + 1 = (A ++ [0]).length by simp, drop_len_app,
      ← hsha, take_len_app]
  have hdrop21 : X.drop (A.length + 21) = rest := by
    rw [hXsplit, show A.length + 21 = (A ++ [0]).length + 20 by simp,
      drop_len_add_app, ← hsha, drop_len_app]
  have hsplitA : splitAll 32 A = [mode, name] := by
    rw [hA, splitAll_append 32 mode name hm32, splitAll_not_mem 32 name hn32]
  have hXlen : X.length = A.length + 21 + rest.length := by
    rw [hXsplit]; simp [hsha]; omega
  obtain ⟨c, xs, hXc⟩ : ∃ c xs, X = c :: xs := by
    cases hc : X with
    | nil => rw [hc] at hXlen; simp at hXlen; omega
    | cons c xs => exact ⟨c, xs, rfl⟩
  have hxs : xs.length + 1 = X.length := by rw [hXc]; rfl
  have : parseTreeBody X = parseTreeAux (xs.length + 1) (c :: xs) := by
    rw [parseTreeBody, hXc]; rfl
  rw [this]
  simp only [parseTreeAux]
  rw [← hXc, hfind]
  simp only [htake, hsplitA]
  rw [hsha20, hdrop21]
  rw [parseTreeAux_irrel xs.length rest.length rest (by omega) (le_refl _)]
  rfl

/-- C5 witness: a single well-formed, space-free entry decodes to its
`(mode, name, oid)` triple. -/
theorem tree_decode_entry_witness :
    ((0 : Nat) ∉ strBytes "100644" ∧ (0 : Nat) ∉ strBytes "f.txt"
      ∧ (32 : Nat) ∉ strBytes "100644" ∧ (32 : Nat) ∉ strBytes "f.txt"
      ∧ (List.replicate 20 (170 : Nat)).length = 20)
    ∧ parseTreeBody (strBytes "100644" ++ 32 :: strBytes "f.txt"
          ++ 0 :: List.replicate 20 170 ++ [])
        = (parseTreeBody []).map
            (fun es => (strBytes "100644", strBytes "f.txt", List.replicate 20 170) :: es) :=
  ⟨⟨by decide, by decide, by decide, by decide, by decide⟩,
   tree_decode_entry (strBytes "100644") (strBytes "f.txt") (List.replicate 20 170) []
     (by decide) (by decide) (by decide) (by decide) (by decide)⟩

/-- C6 counterexample: the first line of an encoded commit is
`tree <oid> ` with a trailing space before the newline, not exactly
`tree <oid>`; likewise the parent line. -/
theorem commit_lines_trailing_space_cex :
    (firstLine (commitBytes "aaaaaaaaaaaaaaaaaaaaaaaaaaaaaaaaaaaaaaaa" none none 0 "+0000")
      ≠ strBytes ("tree " ++ "aaaaaaaaaaaaaaaaaaaaaaaaaaaaaaaaaaaaaaaa"))
    ∧ secondLine (commitBytes "aaaaaaaaaaaaaaaaaaaaaaaaaaaaaaaaaaaaaaaa"
          (some "bbbbbbbbbbbbbbbbbbbbbbbbbbbbbbbbbbbbbbbb") none 0 "+0000")
      ≠ strBytes ("parent " ++ "bbbbbbbbbbbbbbbbbbbbbbbbbbbbbbbbbbbbbbbb") := by
  constructor
  · decide
  · decide

/-- C6 amended: the commit encoder emits as its first line exactly
`tree <oid> ` — the OID followed by one trailing space — terminated by
a newline, and when a parent is supplied, a second line exactly
`parent <oid> ` with the same trailing space, terminated by a
newline. -/
theorem commit_encoder_lines (treeIsh pid : String) (m : Option String) (ts : Nat)
    (tz : String)
    (h1 : ∀ b ∈ strBytes treeIsh, b ≠ 10) (h2 : ∀ b ∈ strBytes pid, b ≠ 10) :
    (∀ p : Option String,
      firstLine (commitBytes treeIsh p m ts tz) = strBytes ("tree " ++ treeIsh ++ " "))
    ∧ secondLine (commitBytes treeIsh (some pid) m ts tz)
        = strBytes ("parent " ++ pid ++ " ") := by
  have hT : strBytes ("tree " ++ treeIsh ++ " ")
      = strBytes "tree " ++ strBytes treeIsh ++ [32] := by
    rw [strBytes_append, strBytes_append]; rfl
  have hP : strBytes ("parent " ++ pid ++ " ")
      = strBytes "parent " ++ strBytes pid ++ [32] := by
    rw [strBytes_append, strBytes_append]; rfl
  have hTn : ∀ R : List Nat, strBytes ("tree " ++ treeIsh ++ " \n") ++ R
      = (strBytes "tree " ++ strBytes treeIsh ++ [32]) ++ 10 :: R := by
    intro R
    rw [strBytes_append, strBytes_append,
      show strBytes " \n" = [32, 10] from rfl]
    simp
  have hPn : ∀ R : List Nat, strBytes ("parent " ++ pid ++ " \n") ++ R
      = (strBytes "parent " ++ strBytes pid ++ [32]) ++ 10 :: R := by
    intro R
    rw [strBytes_append, strBytes_append,
      show strBytes " \n" = [32, 10] from rfl]
    simp
  have htree10 : ∀ x ∈ strBytes "tree ", x ≠ 10 := by decide
  have hparent10 : ∀ x ∈ strBytes "parent ", x ≠ 10 := by decide
  have hA10 : ∀ b ∈ strBytes "tree " ++ strBytes treeIsh ++ [32], b ≠ 10 := by
    intro b hb
    rcases List.mem_append.mp hb with hb | hb
    · rcases List.mem_append.mp hb with hb | hb
      · exact htree10 b hb
      · exact h1 b hb
    · rcases List.mem_cons.mp hb with hb | hb
      · omega
      · simp at hb
  have hB10 : ∀ b ∈ strBytes "parent " ++ strBytes pid ++ [32], b ≠ 10 := by
    intro b hb
    rcases List.mem_append.mp hb with hb | hb
    · rcases List.mem_append.mp hb with hb | hb
      · exact hparent10 b hb
      · exact h2 b hb
    · rcases List.mem_cons.mp hb with hb | hb
      · omega
      · simp at hb
  have hfirst : ∀ p : Option String,
      firstLine (commitBytes treeIsh p m ts tz) = strBytes ("tree " ++ treeIsh ++ " ") := by
    intro p
    simp only [commitBytes, List.append_assoc]
    rw [hTn, firstLine_append _ _ hA10, hT]
  refine ⟨hfirst, ?_⟩
  have hdropA : ∀ (A T : List Nat), (A ++ 10 :: T).drop (A.length + 1) = T := by
    intro A T
    rw [show A ++ 10 :: T = (A ++ [10]) ++ T by simp,
      show A.length + 1 = (A ++ [10]).length by simp, drop_len_app]
  rw [secondLine, hfirst (some pid), hT]
  rw [show commitBytes treeIsh (some pid) m ts tz
      = (strBytes "tree " ++ strBytes treeIsh ++ [32])
        ++ 10 :: (strBytes ("parent " ++ pid ++ " \n")
          ++ (strBytes ("author cndoit18 <cndoit18@outlook.com> "
                ++ Nat.repr ts ++ " " ++ tz ++ "\n")
            ++ (10 :: (match m with | some mm => strBytes mm ++ [10] | none => []))))
    from by simp only [commitBytes]; rw [hTn]; simp]
  rw [hdropA, hPn, firstLine_append _ _ hB10, hP]

/-- C6 witness: concrete OIDs, no message, epoch timestamp. -/
theorem commit_encoder_lines_witness :
    ((∀ b ∈ strBytes "aaaaaaaaaaaaaaaaaaaaaaaaaaaaaaaaaaaaaaaa", b ≠ 10)
      ∧ (∀ b ∈ strBytes "bbbbbbbbbbbbbbbbbbbbbbbbbbbbbbbbbbbbbbbb", b ≠ 10))
    ∧ firstLine (commitBytes "aaaaaaaaaaaaaaaaaaaaaaaaaaaaaaaaaaaaaaaa" none none 0 "+0000")
        = strBytes ("tree " ++ "aaaaaaaaaaaaaaaaaaaaaaaaaaaaaaaaaaaaaaaa" ++ " ")
    ∧ secondLine (commitBytes "aaaaaaaaaaaaaaaaaaaaaaaaaaaaaaaaaaaaaaaa"
          (some "bbbbbbbbbbbbbbbbbbbbbbbbbbbbbbbbbbbbbbbb") none 0 "+0000")
        = strBytes ("parent " ++ "bbbbbbbbbbbbbbbbbbbbbbbbbbbbbbbbbbbbbbbb" ++ " ") :=
  ⟨⟨by decide, by decide⟩,
   (commit_encoder_lines "aaaaaaaaaaaaaaaaaaaaaaaaaaaaaaaaaaaaaaaa"
      "bbbbbbbbbbbbbbbbbbbbbbbbbbbbbbbbbbbbbbbb" none 0 "+0000"
      (by decide) (by decide)).1 none,
   (commit_encoder_lines "aaaaaaaaaaaaaaaaaaaaaaaaaaaaaaaaaaaaaaaa"
      "bbbbbbbbbbbbbbbbbbbbbbbbbbbbbbbbbbbbbbbb" none 0 "+0000"
      (by decide) (by decide)).2⟩

/-- C3 counterexample: a response whose post-NAK-line bytes carry a
valid trailer is accepted by the code, yet the final 20 bytes of the
**whole** response do not equal the SHA-1 of all preceding response
bytes (the hashed region excludes the NAK pkt-line). -/
theorem checksum_whole_response_cex :
    checkFetchResponse (strBytes "0008NAK" ++ 10 :: sha1Bytes []) = .ok (sha1Bytes [])
    ∧ ¬ specWholeResponseCheck (strBytes "0008NAK" ++ 10 :: sha1Bytes []) := by
  constructor
  · decide
  · decide

/-- C3 amended: on a successful fetch POST the client splits the
response at the first newline, discards the NAK pkt-line, and verifies
that the final 20 bytes of the remainder equal the SHA-1 of the
remainder's preceding bytes, aborting on mismatch. -/
theorem checksum_post_nak_region (resp pf : List Nat)
    (h : checkFetchResponse resp = .ok pf) :
    takeLast 20 pf = sha1Bytes (dropLastN 20 pf)
    ∧ ∃ nak, resp = nak ++ 10 :: pf ∧ (10 : Nat) ∉ nak
        ∧ nak.drop 4 = strBytes "NAK" := by
  simp only [checkFetchResponse] at h
  cases hsf : splitFirst 10 resp with
  | none => rw [hsf] at h; simp at h
  | some p =>
    obtain ⟨nak, pack⟩ := p
    rw [hsf] at h
    dsimp only at h
    by_cases hnak : nak.drop 4 = strBytes "NAK"
    · rw [if_pos hnak] at h
      by_cases hck : takeLast 20 pack = sha1Bytes (dropLastN 20 pack)
      · rw [if_pos hck] at h
        simp only [Except.ok.injEq] at h
        obtain ⟨hresp, hnotin⟩ := splitFirst_inv 10 resp nak pack hsf
        rw [← h]
        exact ⟨hck, nak, hresp, hnotin, hnak⟩
      · rw [if_neg hck] at h; simp at h
    · rw [if_neg hnak] at h; simp at h

/-- C3 witness: the accepted concrete response, with the verified
region exhibited. -/
theorem checksum_post_nak_region_witness :
    (checkFetchResponse (strBytes "0008NAK" ++ 10 :: sha1Bytes []) = .ok (sha1Bytes []))
    ∧ (takeLast 20 (sha1Bytes []) = sha1Bytes (dropLastN 20 (sha1Bytes []))
      ∧ ∃ nak, strBytes "0008NAK" ++ 10 :: sha1Bytes [] = nak ++ 10 :: sha1Bytes []
          ∧ (10 : Nat) ∉ nak ∧ nak.drop 4 = strBytes "NAK") :=
  ⟨by decide,
   checksum_post_nak_region (strBytes "0008NAK" ++ 10 :: sha1Bytes []) (sha1Bytes [])
     (by decide)⟩

/-- C4 counterexample: a packfile declaring zero records followed by a
perfectly well-formed record sequence parses successfully with the
extra bytes silently left over — no CorruptPack-style failure — and
the very same leftover bytes do parse as one record when the declared
count is 1. -/
theorem pack_overlong_cex :
    parsePack (fun inp sz => some (inp.take sz, inp.drop sz))
        (strBytes "PACK" ++ [0, 0, 0, 2, 0, 0, 0, 0, 0x35] ++ strBytes "hello")
      = .ok ([], 0x35 :: strBytes "hello")
    ∧ (0x35 :: strBytes "hello") ≠ []
    ∧ parsePack (fun inp sz => some (inp.take sz, inp.drop sz))
        (strBytes "PACK" ++ [0, 0, 0, 2, 0, 0, 0, 1, 0x35] ++ strBytes "hello")
      = .ok ([.literal 3 (strBytes "hello")], []) := by
  refine ⟨by decide, by decide, by decide⟩

/-- C4 amended: parsing fails unless the magic is `PACK` and the
big-endian version is 2, and a successful parse returns exactly the
declared big-endian object count of records; a truncated record
sequence errors, but bytes beyond the declared count (including the
pack trailer) are ignored rather than rejected. -/
theorem pack_parse_header_and_count (inflate : List Nat → Nat → Option (List Nat × List Nat))
    (pf : List Nat) (recs : List PackRecord) (leftover : List Nat)
    (h : parsePack inflate pf = .ok (recs, leftover)) :
    pf.take 4 = strBytes "PACK"
    ∧ beNat ((pf.drop 4).take 4) = 2
    ∧ recs.length = beNat ((pf.drop 8).take 4) := by
  simp only [parsePack] at h
  by_cases hm : pf.take 4 = strBytes "PACK"
  · rw [if_pos hm] at h
    by_cases hv : beNat ((pf.drop 4).take 4) = 2
    · rw [if_pos hv] at h
      exact ⟨hm, hv, parseRecords_length inflate _ _ recs leftover h⟩
    · rw [if_neg hv] at h; simp at h
  · rw [if_neg hm] at h; simp at h

/-- C4 witness: a one-record packfile parses to exactly one record. -/
theorem pack_parse_header_and_count_witness :
    (parsePack (fun inp sz => some (inp.take sz, inp.drop sz))
        (strBytes "PACK" ++ [0, 0, 0, 2, 0, 0, 0, 1, 0x35] ++ strBytes "hello")
      = .ok ([.literal 3 (strBytes "hello")], []))
    ∧ ((strBytes "PACK" ++ [0, 0, 0, 2, 0, 0, 0, 1, 0x35] ++ strBytes "hello").take 4
        = strBytes "PACK"
      ∧ beNat (((strBytes "PACK" ++ [0, 0, 0, 2, 0, 0, 0, 1, 0x35]
          ++ strBytes "hello").drop 4).take 4) = 2
      ∧ ([PackRecord.literal 3 (strBytes "hello")] : List PackRecord).length
          = beNat (((strBytes "PACK" ++ [0, 0, 0, 2, 0, 0, 0, 1, 0x35]
              ++ strBytes "hello").drop 8).take 4)) :=
  ⟨by decide,
   pack_parse_header_and_count (fun inp sz => some (inp.take sz, inp.drop sz))
     (strBytes "PACK" ++ [0, 0, 0, 2, 0, 0, 0, 1, 0x35] ++ strBytes "hello")
     [PackRecord.literal 3 (strBytes "hello")] [] (by decide)⟩

/-- C1 (code bug): resolving a ref-delta stores the reconstructed
content with the f-string rendering of the Python `bytes` object
holding the base's type — the 7 characters `b\x27blob\x27` — instead of
the base's type string `blob`, so retrieving the new OID yields a type
field different from the base's type.  Concretely: base `blob` holding
`hello`, delta `[5, 2, 2, 104, 105]` (source size 5, target size 2,
insert `hi`). -/
theorem ref_delta_stores_bytes_repr_type :
    (resolveDelta id id
        (hashObjectCore id true emptyStore (.str "blob") (strBytes "hello")).2
        (hashObjectCore id true emptyStore (.str "blob") (strBytes "hello")).1
        [5, 2, 2, 104, 105]).map (fun r => getObject id r.2 r.1)
      = .ok (.ok (strBytes "b\x27blob\x27", [104, 105]))
    ∧ strBytes "b\x27blob\x27" ≠ strBytes "blob" := by
  constructor
  · decide
  · decide

end GitPy
